import Mathlib

/-!
Verification development for the buttery_orbcam orbit-camera crate.

The geometry (vectors, quaternions, the pose computation in OrbitCam::drive,
and the input mapping in OrbitCam::process_input) is embedded from
src/src/lib.rs over exact real arithmetic.  The damped-approach primitive
lives in the external buttery crate, whose source is not part of this
repository; it is modelled from the specification (an exponential,
frame-time-independent approach for scalars, and a shortest-arc spherical
interpolation with renormalization for rotations).
-/

noncomputable section

open Real

/-- 3-component vector over the reals, embedding glam's Vec3. -/
structure Vec3 where
  x : ℝ
  y : ℝ
  z : ℝ

instance : Add Vec3 := ⟨fun a b => ⟨a.x + b.x, a.y + b.y, a.z + b.z⟩⟩

instance : SMul ℝ Vec3 := ⟨fun s v => ⟨s * v.x, s * v.y, s * v.z⟩⟩

/-- Dot product, embedding glam's Vec3::dot. -/
def Vec3.dot (a b : Vec3) : ℝ := a.x * b.x + a.y * b.y + a.z * b.z

/-- Cross product, embedding glam's Vec3::cross. -/
def Vec3.cross (a b : Vec3) : Vec3 :=
  ⟨a.y * b.z - a.z * b.y, a.z * b.x - a.x * b.z, a.x * b.y - a.y * b.x⟩

/-- Euclidean length, embedding glam's Vec3::length. -/
def Vec3.length (v : Vec3) : ℝ := Real.sqrt (v.dot v)

/-- Vec3::Y. -/
def vecY : Vec3 := ⟨0, 1, 0⟩

/-- Vec3::Z. -/
def vecZ : Vec3 := ⟨0, 0, 1⟩

/-- Quaternions over the reals, embedding glam's Quat. -/
abbrev Quat := Quaternion ℝ

/-- Length of a quaternion (square root of the sum of squared components). -/
def qnorm (q : Quat) : ℝ := Real.sqrt (Quaternion.normSq q)

/-- Quat::normalize, embedding scaling by the reciprocal length. -/
def normalizeQ (q : Quat) : Quat := (qnorm q)⁻¹ • q

/-- The imaginary part of a quaternion scaled to unit length (zero if the
imaginary part is zero); used to express the axis of a rotation. -/
def unitIm (q : Quat) : Quat :=
  if qnorm q.im = 0 then 0 else (qnorm q.im)⁻¹ • q.im

/-- Quaternion exponential of a pure quaternion: cos of the length plus sin of
the length times the unit axis. -/
def expQ (w : Quat) : Quat :=
  ((Real.cos (qnorm w) : ℝ) : Quat) + Real.sin (qnorm w) • unitIm w

/-- Quaternion logarithm of a unit quaternion: the arccos of the real part
times the unit imaginary axis. -/
def logQ (q : Quat) : Quat := Real.arccos q.re • unitIm q

/-- Sign adjustment selecting the representative on the shortest arc: a unit
quaternion and its negation denote the same rotation. -/
def shortArc (q : Quat) : Quat := if q.re < 0 then -q else q

/-- Quat::from_rotation_x, embedding the half-angle construction. -/
def fromRotationX (angle : ℝ) : Quat :=
  ⟨Real.cos (angle / 2), Real.sin (angle / 2), 0, 0⟩

/-- Quat::from_rotation_y, embedding the half-angle construction. -/
def fromRotationY (angle : ℝ) : Quat :=
  ⟨Real.cos (angle / 2), 0, Real.sin (angle / 2), 0⟩

/-- Quat::from_scaled_axis: identity for the zero vector, otherwise the
rotation about the normalized vector by an angle equal to its length. -/
def fromScaledAxis (v : Vec3) : Quat :=
  if v.length = 0 then 1 else
    ⟨Real.cos (v.length / 2), Real.sin (v.length / 2) * (v.x / v.length),
      Real.sin (v.length / 2) * (v.y / v.length),
      Real.sin (v.length / 2) * (v.z / v.length)⟩

/-- Quat::mul_vec3, embedding glam's formula for rotating a vector by a
quaternion. -/
def mulVec3 (q : Quat) (v : Vec3) : Vec3 :=
  let b : Vec3 := ⟨q.imI, q.imJ, q.imK⟩
  (q.re * q.re - b.dot b) • v + (v.dot b * 2) • b + (q.re * 2) • b.cross v

/-- Modelled from the spec: the buttery crate's frame-time-independent
approach fraction for a time step, derived from a fixed response rate so that
one step of dt matches two steps of dt/2. -/
def rateFactor (rate dt : ℝ) : ℝ := 1 - Real.exp (-(rate * dt))

/-- Modelled from the spec: the buttery crate's TransformComponent, holding a
current value, a mutable target, and a fixed response rate. -/
structure Damped (α : Type) where
  current : α
  target : α
  rate : ℝ

/-- Modelled from the spec: the buttery crate's scalar drive step, an
exponential approach of current toward target. -/
def Damped.advance (d : Damped ℝ) (dt : ℝ) : Damped ℝ :=
  { d with current := d.current + (d.target - d.current) * rateFactor d.rate dt }

/-- Modelled from the spec: the buttery crate's rotation drive step, a
shortest-arc spherical interpolation from current toward target by the same
fraction, renormalized afterward. -/
def rotAdvance (d : Damped Quat) (dt : ℝ) : Damped Quat :=
  { d with current :=
      normalizeQ (d.current *
        expQ (rateFactor d.rate dt • logQ (shortArc (d.current⁻¹ * d.target)))) }

/-- The OrbitCam component: five damped values, embedding src/src/lib.rs. -/
structure OrbitCam where
  up : Damped Quat
  inclination : Damped ℝ
  distance : Damped ℝ
  target_height : Damped ℝ
  min : Damped ℝ

/-- Bevy's Transform restricted to the fields drive produces. -/
structure Transform where
  rotation : Quat
  translation : Vec3
  scale : Vec3

/-- The degenerate-radius correction inside OrbitCam::drive: when the local
position is shorter than the minimum radius, add the deficit to the vertical
component. -/
def correctPos (minR : ℝ) (pos : Vec3) : Vec3 :=
  if pos.length < minR then { pos with y := pos.y + (minR - pos.length) } else pos

/-- OrbitCam::drive, embedding src/src/lib.rs lines 75-96: advance the five
damped values, then compute the pose from their post-advance currents. -/
def OrbitCam.drive (cam : OrbitCam) (time : ℝ) : OrbitCam × Transform :=
  let up := rotAdvance cam.up time
  let incl := cam.inclination.advance time
  let dist := cam.distance.advance time
  let height := cam.target_height.advance time
  let minR := cam.min.advance time
  let arm := dist.current • mulVec3 (fromRotationX (-incl.current)) vecZ
  let pos := mulVec3 up.current (correctPos minR.current (height.current • vecY + arm))
  let rotation := up.current * fromRotationX (-incl.current)
  ({ up := up, inclination := incl, distance := dist, target_height := height,
     min := minR },
   { rotation := rotation, translation := pos, scale := ⟨1, 1, 1⟩ })

/-- Mouse scroll units, embedding bevy's MouseScrollUnit. -/
inductive ScrollUnit
  | line
  | pixel

/-- A scroll event for one tick (only the fields process_input reads). -/
structure MouseWheel where
  unit : ScrollUnit
  y : ℝ

/-- The held state of the ten configured keys for one tick. -/
structure KeysHeld where
  forward : Bool
  backward : Bool
  left : Bool
  right : Bool
  cw : Bool
  ccw : Bool
  tilt_up : Bool
  tilt_down : Bool
  zoom_in : Bool
  zoom_out : Bool

/-- Scroll contribution to delta_zoom: line events at full weight, pixel
events scaled by 0.1, embedding src/src/lib.rs lines 127-132. -/
def scrollZoom (events : List MouseWheel) : ℝ :=
  events.foldl
    (fun acc e => acc + match e.unit with | .line => e.y | .pixel => e.y * 0.1) 0

/-- Key contribution to delta_zoom, embedding src/src/lib.rs lines 134-138:
zoom-out adds 0.2, otherwise zoom-in subtracts 0.2. -/
def keyZoom (k : KeysHeld) : ℝ :=
  if k.zoom_out then 0.2 else if k.zoom_in then -0.2 else 0

/-- Yaw per tick from the cw/ccw keys, embedding lines 114-122. -/
def yawOf (k : KeysHeld) : ℝ :=
  ((if k.cw then (1 : ℝ) else 0) + (if k.ccw then (-1 : ℝ) else 0)) * 0.05

/-- Pitch per tick from the tilt keys, embedding lines 106-123. -/
def pitchOf (k : KeysHeld) : ℝ :=
  ((if k.tilt_up then (-1 : ℝ) else 0) + (if k.tilt_down then (1 : ℝ) else 0)) * 0.08

/-- Pan intent along the right axis, embedding lines 142-148. -/
def rightOf (k : KeysHeld) : ℝ :=
  (if k.right then (-1 : ℝ) else 0) + (if k.left then (1 : ℝ) else 0)

/-- Pan intent along the up axis, embedding lines 150-156. -/
def upOf (k : KeysHeld) : ℝ :=
  (if k.forward then (-1 : ℝ) else 0) + (if k.backward then (1 : ℝ) else 0)

/-- Rust's f32::clamp. -/
def clampR (x lo hi : ℝ) : ℝ := if x < lo then lo else if hi < x then hi else x

/-- The distance-dependent pan speed scale, embedding line 166. -/
def speedScl (want : ℝ) : ℝ :=
  0.04 * ((Real.exp (-Real.sqrt want) + 1)⁻¹ * 2 - 1)

/-- The per-camera loop of OrbitCam::process_input, embedding lines 158-175.
The source's early return on a zero-length pan axis leaves every later camera
untouched, which the first equation of the zero-length branch reflects by
returning the remaining cameras unchanged. -/
def panTick (dz yaw pitch r u : ℝ) : List OrbitCam → List OrbitCam
  | [] => []
  | cam :: rest =>
    let cam' : OrbitCam :=
      { cam with
        distance := { cam.distance with target := cam.distance.target * (1 + dz * 0.2) }
        up := { cam.up with target := normalizeQ (cam.up.target * fromRotationY yaw) }
        inclination := { cam.inclination with
          target := clampR (cam.inclination.target + pitch) 0 (Real.pi / 2) } }
    let speed := speedScl cam'.distance.current
    let axis := vecY.cross ⟨r * -speed, 0, u * speed⟩
    if axis.length = 0 then cam' :: rest
    else
      { cam' with
        up := { cam'.up with
          target := normalizeQ (cam'.up.target * fromScaledAxis axis) } } :: panTick dz yaw pitch r u rest

/-- OrbitCam::process_input, embedding lines 98-176: derive the per-tick
gains from the held keys and scroll events, then walk the cameras. -/
def OrbitCam.process_input (k : KeysHeld) (scroll : List MouseWheel)
    (cams : List OrbitCam) : List OrbitCam :=
  panTick (scrollZoom scroll + keyZoom k) (yawOf k) (pitchOf k) (rightOf k) (upOf k) cams

/-- A sequence of ticks: each element is one tick's held keys and scroll
events, applied in order via process_input. -/
def runTicks : List (KeysHeld × List MouseWheel) → List OrbitCam → List OrbitCam
  | [], cams => cams
  | (k, s) :: rest, cams => runTicks rest (OrbitCam.process_input k s cams)

/-! ### Helper lemmas -/

@[simp] lemma Vec3.add_x (a b : Vec3) : (a + b).x = a.x + b.x := rfl

@[simp] lemma Vec3.add_y (a b : Vec3) : (a + b).y = a.y + b.y := rfl

@[simp] lemma Vec3.add_z (a b : Vec3) : (a + b).z = a.z + b.z := rfl

@[simp] lemma Vec3.smul_x (s : ℝ) (v : Vec3) : (s • v).x = s * v.x := rfl

@[simp] lemma Vec3.smul_y (s : ℝ) (v : Vec3) : (s • v).y = s * v.y := rfl

@[simp] lemma Vec3.smul_z (s : ℝ) (v : Vec3) : (s • v).z = s * v.z := rfl

lemma Vec3.length_mk (x y z : ℝ) :
    Vec3.length ⟨x, y, z⟩ = Real.sqrt (x * x + y * y + z * z) := rfl

lemma clampR_mem {lo hi : ℝ} (x : ℝ) (h : lo ≤ hi) :
    lo ≤ clampR x lo hi ∧ clampR x lo hi ≤ hi := by
  unfold clampR
  split_ifs with h1 h2 <;> constructor <;> linarith

lemma length004 : Vec3.length ⟨0, 0, 4⟩ = 4 := by
  rw [Vec3.length_mk]
  have h : (0 * 0 + 0 * 0 + 4 * 4 : ℝ) = 4 ^ 2 := by norm_num
  rw [h, Real.sqrt_sq (by norm_num)]

lemma length044 : Vec3.length ⟨0, 4, 4⟩ = Real.sqrt 32 := by
  rw [Vec3.length_mk]
  norm_num

@[simp] lemma qnorm_zero : qnorm 0 = 0 := by
  simp [qnorm]

@[simp] lemma qnorm_one : qnorm 1 = 1 := by
  simp [qnorm]

@[simp] lemma unitIm_zero : unitIm 0 = 0 := by
  simp [unitIm]

@[simp] lemma unitIm_one : unitIm 1 = 0 := by
  simp [unitIm]

@[simp] lemma expQ_zero : expQ 0 = 1 := by
  simp [expQ]

@[simp] lemma logQ_one : logQ 1 = 0 := by
  simp [logQ]

@[simp] lemma rateFactor_zero (k : ℝ) : rateFactor k 0 = 0 := by
  simp [rateFactor]

@[simp] lemma normalizeQ_one : normalizeQ 1 = 1 := by
  simp [normalizeQ]

@[simp] lemma shortArc_one : shortArc 1 = 1 := by
  simp [shortArc]

lemma Damped.advance_zero (d : Damped ℝ) : d.advance 0 = d := by
  simp [Damped.advance]

lemma rotAdvance_one_zero (k : ℝ) : rotAdvance ⟨1, 1, k⟩ 0 = ⟨1, 1, k⟩ := by
  simp [rotAdvance]

/-! ### C10 -/

/-- C10: on a tick where both zoom keys are held, the key contribution to
delta_zoom is +0.2 (zoom-out takes precedence); the opposing keys do not
cancel to zero. -/
theorem C10_zoom_out_precedence :
    keyZoom ⟨false, false, false, false, false, false, false, false, true, true⟩ = 0.2 ∧
    keyZoom ⟨false, false, false, false, false, false, false, false, true, true⟩ ≠ 0 := by
  constructor
  · simp [keyZoom]
  · simp only [keyZoom]
    norm_num

/-! ### C4 -/

/-- C4: when the candidate local position is shorter than the minimum radius,
the correction in drive changes only the vertical component, adding exactly
(min − r); at or above the minimum radius the position is unchanged. -/
theorem C4_correction_vertical_only (minR : ℝ) (pos : Vec3) :
    (pos.length < minR →
      (correctPos minR pos).x = pos.x ∧ (correctPos minR pos).z = pos.z ∧
        (correctPos minR pos).y = pos.y + (minR - pos.length)) ∧
    (minR ≤ pos.length → correctPos minR pos = pos) := by
  constructor
  · intro h
    simp [correctPos, if_pos h]
  · intro h
    simp [correctPos, not_lt.mpr h]

/-- Witness for C4 at min = 8 and local position (0, 0, 4), whose length 4 is
below the minimum. -/
theorem C4_correction_vertical_only_witness :
    (correctPos 8 ⟨0, 0, 4⟩).x = (Vec3.mk 0 0 4).x ∧
    (correctPos 8 ⟨0, 0, 4⟩).z = (Vec3.mk 0 0 4).z ∧
    (correctPos 8 ⟨0, 0, 4⟩).y = (Vec3.mk 0 0 4).y + (8 - Vec3.length ⟨0, 0, 4⟩) :=
  (C4_correction_vertical_only 8 ⟨0, 0, 4⟩).1 (by rw [length004]; norm_num)

@[ext] lemma Vec3.ext_comp {a b : Vec3} (hx : a.x = b.x) (hy : a.y = b.y)
    (hz : a.z = b.z) : a = b := by
  cases a
  cases b
  simp_all

@[simp] lemma Vec3.smul_mk (s x y z : ℝ) :
    s • (⟨x, y, z⟩ : Vec3) = ⟨s * x, s * y, s * z⟩ := rfl

@[simp] lemma Vec3.add_mk (x1 y1 z1 x2 y2 z2 : ℝ) :
    ((⟨x1, y1, z1⟩ : Vec3) + ⟨x2, y2, z2⟩) = ⟨x1 + x2, y1 + y2, z1 + z2⟩ := rfl

lemma fromRotationX_zero : fromRotationX 0 = 1 := by
  unfold fromRotationX
  norm_num
  ext <;> simp

lemma mulVec3_one (v : Vec3) : mulVec3 1 v = v := by
  ext <;> simp [mulVec3, Vec3.dot, Vec3.cross]

/-! ### C2 -/

/-- Camera at steady state (current = target in every damped value) whose
candidate local position is (0, 0, 4), of length 4, below the minimum
radius 8. -/
def camC2 : OrbitCam :=
  ⟨⟨1, 1, 1⟩, ⟨0, 0, 1⟩, ⟨4, 4, 1⟩, ⟨0, 0, 1⟩, ⟨8, 8, 1⟩⟩

/-- C2 counterexample: for the concrete camera camC2 the candidate local
position has length 4, below the minimum radius 8, yet the corrected local
position produced by drive has length sqrt 32, not exactly 4 + (8 − 4) = 8 as
the claim states. -/
theorem C2_counterexample :
    (camC2.drive 0).2.translation = ⟨0, 4, 4⟩ ∧
    correctPos 8 ⟨0, 0, 4⟩ = ⟨0, 4, 4⟩ ∧
    Vec3.length ⟨0, 0, 4⟩ = 4 ∧ (4 : ℝ) < 8 ∧
    Vec3.length ⟨0, 4, 4⟩ ≠ 4 + (8 - 4) := by
  have hlen : Vec3.length ⟨0, 0, 4⟩ < 8 := by
    rw [length004]
    norm_num
  have hcorr : correctPos 8 ⟨0, 0, 4⟩ = ⟨0, 4, 4⟩ := by
    unfold correctPos
    rw [if_pos hlen, length004]
    norm_num
  refine ⟨?_, hcorr, length004, by norm_num, ?_⟩
  · show mulVec3 (rotAdvance camC2.up 0).current
        (correctPos ((camC2.min.advance 0).current)
          (((camC2.target_height.advance 0).current) • vecY +
            ((camC2.distance.advance 0).current) •
              mulVec3 (fromRotationX (-(camC2.inclination.advance 0).current)) vecZ))
        = ⟨0, 4, 4⟩
    rw [show camC2.up = ⟨1, 1, 1⟩ from rfl, rotAdvance_one_zero,
      show camC2.min = (⟨8, 8, 1⟩ : Damped ℝ) from rfl,
      show camC2.target_height = (⟨0, 0, 1⟩ : Damped ℝ) from rfl,
      show camC2.distance = (⟨4, 4, 1⟩ : Damped ℝ) from rfl,
      show camC2.inclination = (⟨0, 0, 1⟩ : Damped ℝ) from rfl,
      Damped.advance_zero, Damped.advance_zero, Damped.advance_zero]
    show mulVec3 1 (correctPos 8 ((0 : ℝ) • vecY + (4 : ℝ) • mulVec3 (fromRotationX (-0)) vecZ))
        = ⟨0, 4, 4⟩
    have harg : (0 : ℝ) • vecY + (4 : ℝ) • vecZ = ⟨0, 0, 4⟩ := by
      simp [vecY, vecZ]
    rw [neg_zero, fromRotationX_zero, mulVec3_one, mulVec3_one, harg, hcorr]
  · rw [length044]
    have h32 : Real.sqrt 32 < 8 := by
      have : Real.sqrt 32 < Real.sqrt 64 := Real.sqrt_lt_sqrt (by norm_num) (by norm_num)
      have h64 : Real.sqrt 64 = 8 := by
        rw [show (64 : ℝ) = 8 ^ 2 by norm_num, Real.sqrt_sq (by norm_num)]
      linarith
    intro hcontra
    rw [hcontra] at h32
    norm_num at h32

/-- C2 (amended): for a candidate local position of length r strictly below
min, the corrected local position has length at most min (equality only when
the position is purely vertical); the single-pass correction may undershoot
min, it never overshoots it. -/
theorem C2_corrected_length_le_min (minR : ℝ) (pos : Vec3)
    (h : pos.length < minR) : (correctPos minR pos).length ≤ minR := by
  obtain ⟨x, y, z⟩ := pos
  have hs : (0 : ℝ) ≤ x * x + y * y + z * z := by nlinarith [sq_nonneg x, sq_nonneg y, sq_nonneg z]
  have hr0 : 0 ≤ Vec3.length ⟨x, y, z⟩ := Real.sqrt_nonneg _
  have hrsq : Vec3.length ⟨x, y, z⟩ ^ 2 = x * x + y * y + z * z := by
    rw [Vec3.length_mk]
    exact Real.sq_sqrt hs
  have hy : y ≤ Vec3.length ⟨x, y, z⟩ := by
    rw [Vec3.length_mk]
    calc y ≤ |y| := le_abs_self y
      _ = Real.sqrt (y ^ 2) := (Real.sqrt_sq_eq_abs y).symm
      _ ≤ Real.sqrt (x * x + y * y + z * z) :=
          Real.sqrt_le_sqrt (by nlinarith [sq_nonneg x, sq_nonneg z])
  have hm : 0 ≤ minR := le_trans hr0 h.le
  unfold correctPos
  rw [if_pos h]
  show Vec3.length ⟨x, y + (minR - Vec3.length ⟨x, y, z⟩), z⟩ ≤ minR
  rw [Vec3.length_mk]
  have hkey : x * x + (y + (minR - Vec3.length ⟨x, y, z⟩)) * (y + (minR - Vec3.length ⟨x, y, z⟩)) + z * z ≤ minR ^ 2 := by
    nlinarith [mul_nonneg (sub_nonneg.mpr h.le) (sub_nonneg.mpr hy)]
  calc Real.sqrt (x * x + (y + (minR - Vec3.length ⟨x, y, z⟩)) * (y + (minR - Vec3.length ⟨x, y, z⟩)) + z * z)
      ≤ Real.sqrt (minR ^ 2) := Real.sqrt_le_sqrt hkey
    _ = minR := Real.sqrt_sq hm

/-- Witness for the amended C2 at min = 8 and local position (0, 0, 4). -/
theorem C2_corrected_length_le_min_witness :
    (correctPos 8 ⟨0, 0, 4⟩).length ≤ 8 :=
  C2_corrected_length_le_min 8 ⟨0, 0, 4⟩ (by rw [length004]; norm_num)

/-! ### C3 -/

/-- C3: drive advances the five damped values and returns the pose whose
position is the up rotation applied to the (possibly min-radius-corrected)
local position height·Y + dist·(Rx(−incl)·Z), and whose orientation is the up
rotation composed with Rx(−incl), all taken at the post-advance current
values; drive is a total function (no failure modes). -/
theorem C3_drive_pose_formula (cam : OrbitCam) (t : ℝ) :
    (cam.drive t).2.translation
      = mulVec3 (rotAdvance cam.up t).current
          (correctPos ((cam.min.advance t).current)
            (((cam.target_height.advance t).current) • vecY +
              ((cam.distance.advance t).current) •
                mulVec3 (fromRotationX (-(cam.inclination.advance t).current)) vecZ)) ∧
    (cam.drive t).2.rotation
      = (rotAdvance cam.up t).current *
          fromRotationX (-(cam.inclination.advance t).current) ∧
    (cam.drive t).2.scale = ⟨1, 1, 1⟩ ∧
    (cam.drive t).1
      = ⟨rotAdvance cam.up t, cam.inclination.advance t, cam.distance.advance t,
          cam.target_height.advance t, cam.min.advance t⟩ :=
  ⟨rfl, rfl, rfl, rfl⟩

/-! ### C7 -/

/-- All keys released. -/
def noKeys : KeysHeld :=
  ⟨false, false, false, false, false, false, false, false, false, false⟩

/-- Camera with distance target 4 for the zoom scenario. -/
def camZoom : OrbitCam :=
  ⟨⟨1, 1, 1⟩, ⟨0, 0, 1⟩, ⟨4, 4, 1⟩, ⟨0, 0, 1⟩, ⟨8, 8, 1⟩⟩

instance : Inhabited OrbitCam :=
  ⟨⟨⟨1, 1, 1⟩, ⟨0, 0, 1⟩, ⟨4, 4, 1⟩, ⟨0, 0, 1⟩, ⟨0, 0, 1⟩⟩⟩

/-- C7: each tick multiplies the camera's distance target by
(1 + delta_zoom × 0.2), where delta_zoom sums line scroll events at full
weight, pixel events at 0.1 weight, plus the fixed key increments; from
target 4.0 a tick carrying delta_zoom 1.0 yields 4.8. -/
theorem C7_zoom_multiplicative :
    (∀ (k : KeysHeld) (s : List MouseWheel) (cam : OrbitCam) (rest : List OrbitCam),
      ((OrbitCam.process_input k s (cam :: rest)).headI).distance.target
        = cam.distance.target * (1 + (scrollZoom s + keyZoom k) * 0.2)) ∧
    ((OrbitCam.process_input noKeys [⟨ScrollUnit.line, 1⟩] [camZoom]).headI).distance.target
      = 4.8 := by
  have hmain : ∀ (k : KeysHeld) (s : List MouseWheel) (cam : OrbitCam)
      (rest : List OrbitCam),
      ((OrbitCam.process_input k s (cam :: rest)).headI).distance.target
        = cam.distance.target * (1 + (scrollZoom s + keyZoom k) * 0.2) := by
    intro k s cam rest
    simp only [OrbitCam.process_input, panTick]
    split <;> rfl
  refine ⟨hmain, ?_⟩
  rw [hmain]
  norm_num [scrollZoom, keyZoom, noKeys, camZoom]

/-! ### C1 -/

/-- Keys with only zoom-out held (no pan keys, so the pan axis is zero). -/
def zoomOutKeys : KeysHeld :=
  ⟨false, false, false, false, false, false, false, false, false, true⟩

/-- First camera of the two-camera scenario. -/
def camA1 : OrbitCam :=
  ⟨⟨1, 1, 1⟩, ⟨0, 0, 1⟩, ⟨4, 4, 1⟩, ⟨0, 0, 1⟩, ⟨8, 8, 1⟩⟩

/-- Second camera of the two-camera scenario. -/
def camB1 : OrbitCam :=
  ⟨⟨1, 1, 1⟩, ⟨0, 0, 1⟩, ⟨4, 4, 1⟩, ⟨0, 0, 1⟩, ⟨8, 8, 1⟩⟩

/-- The pan axis built from zero pan intent has zero length. -/
lemma axis_zero (s : ℝ) :
    Vec3.length (vecY.cross ⟨0 * -s, 0, 0 * s⟩) = 0 := by
  have h : vecY.cross ⟨0 * -s, 0, 0 * s⟩ = ⟨0, 0, 0⟩ := by
    ext <;> simp [vecY, Vec3.cross]
  rw [h, Vec3.length_mk]
  norm_num

/-- C1: with two cameras and no pan key held, process_input updates the first
camera and then returns, leaving the second camera entirely untouched: its
distance target keeps the value 4 instead of receiving the tick's zoom update
(which would have changed it).  This exhibits the early return at
src/src/lib.rs line 171 aborting the whole input pass rather than proceeding
to the next camera. -/
theorem C1_zero_pan_axis_aborts_whole_pass :
    (OrbitCam.process_input zoomOutKeys [] [camA1, camB1]).get? 1 = some camB1 ∧
    camB1.distance.target = 4 ∧
    camB1.distance.target
      ≠ camB1.distance.target * (1 + (scrollZoom [] + keyZoom zoomOutKeys) * 0.2) := by
  refine ⟨?_, rfl, ?_⟩
  · have hr : rightOf zoomOutKeys = 0 := by simp [rightOf, zoomOutKeys]
    have hu : upOf zoomOutKeys = 0 := by simp [upOf, zoomOutKeys]
    simp only [OrbitCam.process_input, panTick, hr, hu]
    rw [if_pos (axis_zero _)]
    rfl
  · show (4 : ℝ) ≠ 4 * (1 + (scrollZoom [] + keyZoom zoomOutKeys) * 0.2)
    norm_num [scrollZoom, keyZoom, zoomOutKeys]

/-! ### C8 -/

/-- Component-wise equality of the current fields of the five damped values
of two cameras. -/
def sameCurrents (c c' : OrbitCam) : Prop :=
  c'.up.current = c.up.current ∧ c'.inclination.current = c.inclination.current ∧
    c'.distance.current = c.distance.current ∧
    c'.target_height.current = c.target_height.current ∧ c'.min.current = c.min.current

lemma sameCurrents_refl_list (l : List OrbitCam) : List.Forall₂ sameCurrents l l := by
  induction l with
  | nil => exact List.Forall₂.nil
  | cons a l ih => exact List.Forall₂.cons ⟨rfl, rfl, rfl, rfl, rfl⟩ ih

lemma panTick_preserves_currents (dz yaw pitch r u : ℝ) (cams : List OrbitCam) :
    List.Forall₂ sameCurrents cams (panTick dz yaw pitch r u cams) := by
  induction cams with
  | nil => exact List.Forall₂.nil
  | cons cam rest ih =>
    simp only [panTick]
    split
    · exact List.Forall₂.cons ⟨rfl, rfl, rfl, rfl, rfl⟩ (sameCurrents_refl_list rest)
    · exact List.Forall₂.cons ⟨rfl, rfl, rfl, rfl, rfl⟩ ih

/-- C8: process_input touches only target fields: for every camera in the
list, every current field of the five damped values is unchanged. -/
theorem C8_process_input_preserves_currents (k : KeysHeld) (s : List MouseWheel)
    (cams : List OrbitCam) :
    List.Forall₂ sameCurrents cams (OrbitCam.process_input k s cams) :=
  panTick_preserves_currents _ _ _ _ _ cams

/-! ### C5 -/

/-- Invariant: a camera's inclination target lies in [0, π/2]. -/
def InclInv (c : OrbitCam) : Prop :=
  0 ≤ c.inclination.target ∧ c.inclination.target ≤ Real.pi / 2

/-- Keys with only tilt-up held. -/
def tiltKeys : KeysHeld :=
  ⟨false, false, false, false, false, false, true, false, false, false⟩

lemma pi_half_nonneg : (0 : ℝ) ≤ Real.pi / 2 := by positivity

lemma panTick_incl_inv (dz yaw pitch r u : ℝ) :
    ∀ cams : List OrbitCam, (∀ c ∈ cams, InclInv c) →
      ∀ c ∈ panTick dz yaw pitch r u cams, InclInv c := by
  intro cams
  induction cams with
  | nil =>
    intro _ c hc
    simp [panTick] at hc
  | cons cam rest ih =>
    intro h
    simp only [panTick]
    split
    · intro c hc
      rcases List.mem_cons.mp hc with rfl | hc2
      · exact clampR_mem _ pi_half_nonneg
      · exact h _ (List.mem_cons_of_mem _ hc2)
    · intro c hc
      rcases List.mem_cons.mp hc with rfl | hc2
      · exact clampR_mem _ pi_half_nonneg
      · exact ih (fun cc hcc => h _ (List.mem_cons_of_mem _ hcc)) c hc2

lemma runTicks_incl_inv :
    ∀ (ticks : List (KeysHeld × List MouseWheel)) (cams : List OrbitCam),
      (∀ c ∈ cams, InclInv c) → ∀ c ∈ runTicks ticks cams, InclInv c := by
  intro ticks
  induction ticks with
  | nil =>
    intro cams h
    simpa [runTicks] using h
  | cons t rest ih =>
    intro cams h
    obtain ⟨k, s⟩ := t
    simp only [runTicks]
    exact ih _ (panTick_incl_inv _ _ _ _ _ _ h)

lemma tilt_step (c : OrbitCam) :
    OrbitCam.process_input tiltKeys [] [c]
      = [{ c with
            distance := { c.distance with
              target := c.distance.target * (1 + (scrollZoom [] + keyZoom tiltKeys) * 0.2) }
            up := { c.up with
              target := normalizeQ (c.up.target * fromRotationY (yawOf tiltKeys)) }
            inclination := { c.inclination with
              target := clampR (c.inclination.target + pitchOf tiltKeys) 0 (Real.pi / 2) } }] := by
  have hr : rightOf tiltKeys = 0 := by simp [rightOf, tiltKeys]
  have hu : upOf tiltKeys = 0 := by simp [upOf, tiltKeys]
  simp only [OrbitCam.process_input, panTick, hr, hu]
  rw [if_pos (axis_zero _)]

lemma pitch_tilt : pitchOf tiltKeys = -0.08 := by
  simp [pitchOf, tiltKeys]

lemma tilt_sat : ∀ (n : ℕ) (c : OrbitCam), 0 ≤ c.inclination.target →
    c.inclination.target ≤ Real.pi / 2 → c.inclination.target ≤ 0.08 * n →
    (runTicks (List.replicate n (tiltKeys, [])) [c]).map
      (fun cc => cc.inclination.target) = [0] := by
  intro n
  induction n with
  | zero =>
    intro c h0 hpi hle
    have hc0 : c.inclination.target = 0 := le_antisymm (by simpa using hle) h0
    simp [runTicks, hc0]
  | succ n ih =>
    intro c h0 hpi hle
    rw [List.replicate_succ]
    simp only [runTicks]
    rw [tilt_step c]
    apply ih
    · exact (clampR_mem _ pi_half_nonneg).1
    · exact (clampR_mem _ pi_half_nonneg).2
    · show clampR (c.inclination.target + pitchOf tiltKeys) 0 (Real.pi / 2) ≤ 0.08 * (n : ℕ)
      rw [pitch_tilt]
      unfold clampR
      split_ifs with h1 h2
      · positivity
      · linarith
      · push_cast at hle ⊢
        linarith

/-- C5: after any sequence of process_input ticks, every camera's inclination
target stays in [0, π/2]; holding tilt-up for 10000 ticks saturates the
inclination target at exactly 0. -/
theorem C5_inclination_clamped :
    (∀ (ticks : List (KeysHeld × List MouseWheel)) (cams : List OrbitCam),
      (∀ c ∈ cams, InclInv c) → ∀ c ∈ runTicks ticks cams, InclInv c) ∧
    (∀ cam : OrbitCam, InclInv cam →
      (runTicks (List.replicate 10000 (tiltKeys, [])) [cam]).map
        (fun c => c.inclination.target) = [0]) := by
  refine ⟨runTicks_incl_inv, ?_⟩
  intro cam h
  apply tilt_sat
  · exact h.1
  · exact h.2
  · have hpi : Real.pi ≤ 4 := Real.pi_le_four
    have h2 := h.2
    push_cast
    linarith

/-- Camera used as the concrete input of the C5 witness. -/
def camC5 : OrbitCam :=
  ⟨⟨1, 1, 1⟩, ⟨0, 0, 1⟩, ⟨4, 4, 1⟩, ⟨0, 0, 1⟩, ⟨8, 8, 1⟩⟩

/-- Witness for C5: from inclination target 0, ten thousand tilt-up ticks
leave the target at exactly 0. -/
theorem C5_inclination_clamped_witness :
    (runTicks (List.replicate 10000 (tiltKeys, [])) [camC5]).map
      (fun c => c.inclination.target) = [0] :=
  C5_inclination_clamped.2 camC5 ⟨le_refl 0, pi_half_nonneg⟩

/-! ### C6 -/

@[simp] lemma normSq_oneQ : Quaternion.normSq (1 : Quat) = 1 := map_one _

lemma qnorm_eq_zero {q : Quat} : qnorm q = 0 ↔ q = 0 := by
  unfold qnorm
  rw [Real.sqrt_eq_zero (Quaternion.normSq_nonneg)]
  exact Quaternion.normSq_eq_zero

lemma sq_qnorm (q : Quat) : qnorm q ^ 2 = Quaternion.normSq q :=
  Real.sq_sqrt (Quaternion.normSq_nonneg)

lemma normalizeQ_of_unit {q : Quat} (h : Quaternion.normSq q = 1) :
    normalizeQ q = q := by
  unfold normalizeQ qnorm
  rw [h, Real.sqrt_one, inv_one, one_smul]

lemma unitIm_re (q : Quat) : (unitIm q).re = 0 := by
  unfold unitIm
  split_ifs <;> simp

lemma logQ_re (q : Quat) : (logQ q).re = 0 := by
  unfold logQ
  simp [unitIm_re]

lemma normSq_expQ_pure {w : Quat} (h : w.re = 0) :
    Quaternion.normSq (expQ w) = 1 := by
  rcases eq_or_ne w 0 with rfl | hw
  · simp
  · have him : w.im = w := by ext <;> simp [h]
    have hn : qnorm w ≠ 0 := fun h0 => hw (qnorm_eq_zero.mp h0)
    have hunit : unitIm w = (qnorm w)⁻¹ • w := by
      unfold unitIm
      rw [him, if_neg hn]
    have hsq : qnorm w ^ 2 = w.re ^ 2 + w.imI ^ 2 + w.imJ ^ 2 + w.imK ^ 2 := by
      rw [sq_qnorm, Quaternion.normSq_def']
    have himsum : w.imI ^ 2 + w.imJ ^ 2 + w.imK ^ 2 = qnorm w ^ 2 := by
      rw [hsq, h]
      ring
    have hinv : (qnorm w)⁻¹ * qnorm w = 1 := inv_mul_cancel₀ hn
    have hcs := Real.sin_sq_add_cos_sq (qnorm w)
    unfold expQ
    rw [hunit, Quaternion.normSq_def']
    simp only [Quaternion.add_re, Quaternion.add_imI, Quaternion.add_imJ, Quaternion.add_imK,
      Quaternion.coe_re, Quaternion.coe_imI, Quaternion.coe_imJ, Quaternion.coe_imK,
      Quaternion.smul_re, Quaternion.smul_imI, Quaternion.smul_imJ, Quaternion.smul_imK,
      smul_eq_mul, h]
    linear_combination (Real.sin (qnorm w)) ^ 2 * ((qnorm w)⁻¹) ^ 2 * himsum +
      (Real.sin (qnorm w)) ^ 2 * ((qnorm w)⁻¹ * qnorm w + 1) * hinv + hcs

lemma normSq_expQ_smul_logQ (b : ℝ) (q : Quat) :
    Quaternion.normSq (expQ (b • logQ q)) = 1 :=
  normSq_expQ_pure (by simp [Quaternion.smul_re, logQ_re])

lemma normSq_fromRotationY (a : ℝ) : Quaternion.normSq (fromRotationY a) = 1 := by
  simp only [fromRotationY, Quaternion.normSq_def']
  have hcs := Real.sin_sq_add_cos_sq (a / 2)
  nlinarith [hcs]

lemma normSq_fromScaledAxis (v : Vec3) :
    Quaternion.normSq (fromScaledAxis v) = 1 := by
  unfold fromScaledAxis
  split_ifs with h
  · simp
  · have hl : 0 ≤ v.dot v := by
      unfold Vec3.dot
      nlinarith [mul_self_nonneg v.x, mul_self_nonneg v.y, mul_self_nonneg v.z]
    have hsq : v.length ^ 2 = v.x ^ 2 + v.y ^ 2 + v.z ^ 2 := by
      unfold Vec3.length
      rw [Real.sq_sqrt hl]
      unfold Vec3.dot
      ring
    have hinv : v.length⁻¹ * v.length = 1 := inv_mul_cancel₀ h
    have hcs := Real.sin_sq_add_cos_sq (v.length / 2)
    rw [Quaternion.normSq_def']
    show Real.cos (v.length / 2) ^ 2 + (Real.sin (v.length / 2) * (v.x / v.length)) ^ 2 +
        (Real.sin (v.length / 2) * (v.y / v.length)) ^ 2 +
        (Real.sin (v.length / 2) * (v.z / v.length)) ^ 2 = 1
    have hx : (v.x / v.length) ^ 2 + (v.y / v.length) ^ 2 + (v.z / v.length) ^ 2 = 1 := by
      field_simp
      linarith [hsq]
    linear_combination (Real.sin (v.length / 2)) ^ 2 * hx + hcs

lemma normSq_normalizeQ_mul {a b : Quat} (ha : Quaternion.normSq a = 1)
    (hb : Quaternion.normSq b = 1) :
    Quaternion.normSq (normalizeQ (a * b)) = 1 := by
  have hab : Quaternion.normSq (a * b) = 1 := by
    rw [map_mul, ha, hb, one_mul]
  rw [normalizeQ_of_unit hab]
  exact hab

/-- Both rotation values of a camera's up component are unit quaternions. -/
def UpUnit (c : OrbitCam) : Prop :=
  Quaternion.normSq c.up.current = 1 ∧ Quaternion.normSq c.up.target = 1

lemma panTick_up_unit (dz yaw pitch r u : ℝ) :
    ∀ cams : List OrbitCam, (∀ c ∈ cams, UpUnit c) →
      ∀ c ∈ panTick dz yaw pitch r u cams, UpUnit c := by
  intro cams
  induction cams with
  | nil =>
    intro _ c hc
    simp [panTick] at hc
  | cons cam rest ih =>
    intro h
    have hcam : UpUnit cam := h cam (List.mem_cons_self _ _)
    simp only [panTick]
    split
    · intro c hc
      rcases List.mem_cons.mp hc with rfl | hc2
      · exact ⟨hcam.1, normSq_normalizeQ_mul hcam.2 (normSq_fromRotationY _)⟩
      · exact h _ (List.mem_cons_of_mem _ hc2)
    · intro c hc
      rcases List.mem_cons.mp hc with rfl | hc2
      · exact ⟨hcam.1, normSq_normalizeQ_mul
          (normSq_normalizeQ_mul hcam.2 (normSq_fromRotationY _))
          (normSq_fromScaledAxis _)⟩
      · exact ih (fun cc hcc => h _ (List.mem_cons_of_mem _ hcc)) c hc2

lemma rotAdvance_unit {d : Damped Quat} (hc : Quaternion.normSq d.current = 1)
    (dt : ℝ) : Quaternion.normSq ((rotAdvance d dt).current) = 1 :=
  normSq_normalizeQ_mul hc (normSq_expQ_smul_logQ _ _)

/-- C6: starting from unit rotation values, up.target and up.current remain
unit quaternions after every process_input tick and every drive call, for all
inputs (exact real arithmetic). -/
theorem C6_up_unit_length :
    (∀ (k : KeysHeld) (s : List MouseWheel) (cams : List OrbitCam),
      (∀ c ∈ cams, UpUnit c) → ∀ c ∈ OrbitCam.process_input k s cams, UpUnit c) ∧
    (∀ (cam : OrbitCam) (t : ℝ), UpUnit cam → UpUnit ((cam.drive t).1)) := by
  constructor
  · intro k s cams h
    exact panTick_up_unit _ _ _ _ _ cams h
  · intro cam t h
    exact ⟨rotAdvance_unit h.1 t, h.2⟩

/-- Camera used as the concrete input of the C6 witness. -/
def camC6 : OrbitCam :=
  ⟨⟨1, 1, 1⟩, ⟨0, 0, 1⟩, ⟨4, 4, 1⟩, ⟨0, 0, 1⟩, ⟨8, 8, 1⟩⟩

/-- Witness for C6: driving the identity-up camera for one second keeps both
up rotation values at unit length. -/
theorem C6_up_unit_length_witness : UpUnit ((camC6.drive 1).1) :=
  C6_up_unit_length.2 camC6 1 ⟨normSq_oneQ, normSq_oneQ⟩

/-! ### C9 -/

/-- The unit quaternion with half-angle t about the unit axis (x, y, z). -/
def axisQ (t x y z : ℝ) : Quat :=
  ⟨Real.cos t, Real.sin t * x, Real.sin t * y, Real.sin t * z⟩

lemma normSq_axisQ (t x y z : ℝ) (h : x ^ 2 + y ^ 2 + z ^ 2 = 1) :
    Quaternion.normSq (axisQ t x y z) = 1 := by
  unfold axisQ
  rw [Quaternion.normSq_def']
  linear_combination (Real.sin t) ^ 2 * h + Real.sin_sq_add_cos_sq t

lemma normSq_axisQv (x y z : ℝ) (h : x ^ 2 + y ^ 2 + z ^ 2 = 1) :
    Quaternion.normSq (⟨0, x, y, z⟩ : Quat) = 1 := by
  rw [Quaternion.normSq_def']
  linear_combination h

lemma axisQ_mul (a b x y z : ℝ) (hxyz : x ^ 2 + y ^ 2 + z ^ 2 = 1) :
    axisQ a x y z * axisQ b x y z = axisQ (a + b) x y z := by
  unfold axisQ
  ext
  · simp only [Quaternion.mul_re]
    rw [Real.cos_add]
    linear_combination (-(Real.sin a * Real.sin b)) * hxyz
  · simp only [Quaternion.mul_imI]
    rw [Real.sin_add]
    ring
  · simp only [Quaternion.mul_imJ]
    rw [Real.sin_add]
    ring
  · simp only [Quaternion.mul_imK]
    rw [Real.sin_add]
    ring

lemma expQ_smul_axis (t x y z : ℝ) (hxyz : x ^ 2 + y ^ 2 + z ^ 2 = 1) :
    expQ (t • (⟨0, x, y, z⟩ : Quat)) = axisQ t x y z := by
  have hv : Quaternion.normSq (⟨0, x, y, z⟩ : Quat) = 1 := normSq_axisQv x y z hxyz
  rcases eq_or_ne t 0 with rfl | ht
  · rw [zero_smul, expQ_zero]
    unfold axisQ
    ext <;> simp
  · have hw : qnorm (t • (⟨0, x, y, z⟩ : Quat)) = |t| := by
      unfold qnorm
      rw [Quaternion.normSq_smul, hv, mul_one, Real.sqrt_sq_eq_abs]
    have him : Quaternion.im (t • (⟨0, x, y, z⟩ : Quat)) = t • (⟨0, x, y, z⟩ : Quat) := by
      ext <;> simp
    have htabs : |t| ≠ 0 := abs_ne_zero.mpr ht
    have hsin : Real.sin |t| * |t|⁻¹ * t = Real.sin t := by
      rcases abs_cases t with ⟨heq, _⟩ | ⟨heq, _⟩
      · rw [heq, mul_assoc, inv_mul_cancel₀ ht, mul_one]
      · rw [heq, Real.sin_neg, inv_neg]
        have h1 : t⁻¹ * t = 1 := inv_mul_cancel₀ ht
        linear_combination Real.sin t * h1
    unfold expQ unitIm
    rw [him, hw, if_neg htabs]
    unfold axisQ
    ext
    · simp [Real.cos_abs]
    · simp only [QuaternionAlgebra.smul_mk, Quaternion.add_imI, Quaternion.coe_imI,
        Quaternion.smul_imI, smul_eq_mul, zero_add]
      linear_combination x * hsin
    · simp only [QuaternionAlgebra.smul_mk, Quaternion.add_imJ, Quaternion.coe_imJ,
        Quaternion.smul_imJ, smul_eq_mul, zero_add]
      linear_combination y * hsin
    · simp only [QuaternionAlgebra.smul_mk, Quaternion.add_imK, Quaternion.coe_imK,
        Quaternion.smul_imK, smul_eq_mul, zero_add]
      linear_combination z * hsin

lemma im_axisQ (t x y z : ℝ) :
    Quaternion.im (axisQ t x y z) = Real.sin t • (⟨0, x, y, z⟩ : Quat) := by
  unfold axisQ
  ext <;> simp

lemma logQ_axisQ (t x y z : ℝ) (hxyz : x ^ 2 + y ^ 2 + z ^ 2 = 1)
    (h0 : 0 ≤ t) (hpi : t < Real.pi) :
    logQ (axisQ t x y z) = t • (⟨0, x, y, z⟩ : Quat) := by
  have hre : (axisQ t x y z).re = Real.cos t := rfl
  unfold logQ
  rw [hre, Real.arccos_cos h0 hpi.le]
  rcases eq_or_lt_of_le h0 with rfl | htpos
  · rw [zero_smul, zero_smul]
  · have hsinpos : 0 < Real.sin t := Real.sin_pos_of_pos_of_lt_pi htpos hpi
    have hqn : qnorm (Quaternion.im (axisQ t x y z)) = Real.sin t := by
      rw [im_axisQ]
      unfold qnorm
      rw [Quaternion.normSq_smul, normSq_axisQv x y z hxyz, mul_one, Real.sqrt_sq_eq_abs,
        abs_of_pos hsinpos]
    congr 1
    unfold unitIm
    rw [hqn, if_neg (ne_of_gt hsinpos), im_axisQ, smul_smul,
      inv_mul_cancel₀ (ne_of_gt hsinpos), one_smul]

lemma unit_ne_zero {q : Quat} (h : Quaternion.normSq q = 1) : q ≠ 0 := by
  intro h0
  rw [h0] at h
  simp at h

lemma rotAdvance_eval (q0 : Quat) (x y z b k dt : ℝ)
    (hq0 : Quaternion.normSq q0 = 1) (hxyz : x ^ 2 + y ^ 2 + z ^ 2 = 1)
    (hb0 : 0 ≤ b) (hbpi : b ≤ Real.pi / 2) :
    rotAdvance ⟨q0, q0 * axisQ b x y z, k⟩ dt
      = ⟨q0 * axisQ (rateFactor k dt * b) x y z, q0 * axisQ b x y z, k⟩ := by
  have hq0ne : q0 ≠ 0 := unit_ne_zero hq0
  have hcos : 0 ≤ Real.cos b :=
    Real.cos_nonneg_of_mem_Icc ⟨by linarith [Real.pi_pos], hbpi⟩
  have hbltpi : b < Real.pi := by linarith [Real.pi_pos]
  have hsa : shortArc (axisQ b x y z) = axisQ b x y z := by
    unfold shortArc
    split_ifs with hneg
    · exact absurd hneg (not_lt.mpr hcos)
    · rfl
  simp only [rotAdvance]
  rw [inv_mul_cancel_left₀ hq0ne, hsa, logQ_axisQ b x y z hxyz hb0 hbltpi, smul_smul,
    expQ_smul_axis _ x y z hxyz,
    normalizeQ_of_unit (by rw [map_mul, hq0, normSq_axisQ _ _ _ _ hxyz, one_mul])]

/-- C9: for the damping primitive (scalar and rotation alike), advancing once
by dt produces the same current value as advancing twice by dt/2 — in exact
real arithmetic the two agree exactly, hence within any floating tolerance;
the rotation case is stated for a target at angle 2b (half-angle b up to a
quarter turn) from the current orientation about a unit axis (x, y, z). -/
theorem C9_frame_time_independence :
    (∀ (d : Damped ℝ) (dt : ℝ), 0 ≤ dt →
      (d.advance (dt / 2)).advance (dt / 2) = d.advance dt) ∧
    (∀ (q0 : Quat) (x y z b k dt : ℝ), Quaternion.normSq q0 = 1 →
      x ^ 2 + y ^ 2 + z ^ 2 = 1 → 0 ≤ b → b ≤ Real.pi / 2 → 0 ≤ k → 0 ≤ dt →
      (rotAdvance (rotAdvance ⟨q0, q0 * axisQ b x y z, k⟩ (dt / 2)) (dt / 2)).current
        = (rotAdvance ⟨q0, q0 * axisQ b x y z, k⟩ dt).current) := by
  constructor
  · intro d dt _
    have hfe : Real.exp (-(d.rate * (dt / 2))) * Real.exp (-(d.rate * (dt / 2)))
        = Real.exp (-(d.rate * dt)) := by
      rw [← Real.exp_add]
      congr 1
      ring
    unfold Damped.advance rateFactor
    simp only [Damped.mk.injEq, and_true]
    linear_combination (-(d.target - d.current)) * hfe
  · intro q0 x y z b k dt hq0 hxyz hb0 hbpi hk hdt
    have hf1 : rateFactor k (dt / 2) ≤ 1 := by
      unfold rateFactor
      linarith [Real.exp_pos (-(k * (dt / 2)))]
    have hf0 : 0 ≤ rateFactor k (dt / 2) := by
      unfold rateFactor
      have hle : Real.exp (-(k * (dt / 2))) ≤ 1 := by
        rw [show (1 : ℝ) = Real.exp 0 from (Real.exp_zero).symm]
        apply Real.exp_le_exp.mpr
        nlinarith
      linarith
    have hq1 : Quaternion.normSq (q0 * axisQ (rateFactor k (dt / 2) * b) x y z) = 1 := by
      rw [map_mul, hq0, normSq_axisQ _ _ _ _ hxyz, one_mul]
    have hb0' : 0 ≤ (1 - rateFactor k (dt / 2)) * b := mul_nonneg (by linarith) hb0
    have hbpi' : (1 - rateFactor k (dt / 2)) * b ≤ Real.pi / 2 := by
      nlinarith
    have hfe : Real.exp (-(k * (dt / 2))) * Real.exp (-(k * (dt / 2)))
        = Real.exp (-(k * dt)) := by
      rw [← Real.exp_add]
      congr 1
      ring
    have hang : rateFactor k (dt / 2) * b +
        rateFactor k (dt / 2) * ((1 - rateFactor k (dt / 2)) * b) = rateFactor k dt * b := by
      unfold rateFactor
      linear_combination (-b) * hfe
    have hsum : rateFactor k (dt / 2) * b + (1 - rateFactor k (dt / 2)) * b = b := by
      ring
    have htgt : q0 * axisQ b x y z
        = q0 * axisQ (rateFactor k (dt / 2) * b) x y z *
            axisQ ((1 - rateFactor k (dt / 2)) * b) x y z := by
      rw [mul_assoc, axisQ_mul _ _ _ _ _ hxyz, hsum]
    rw [rotAdvance_eval q0 x y z b k (dt / 2) hq0 hxyz hb0 hbpi,
      rotAdvance_eval q0 x y z b k dt hq0 hxyz hb0 hbpi, htgt,
      rotAdvance_eval _ x y z _ k (dt / 2) hq1 hxyz hb0' hbpi']
    show q0 * axisQ (rateFactor k (dt / 2) * b) x y z *
        axisQ (rateFactor k (dt / 2) * ((1 - rateFactor k (dt / 2)) * b)) x y z
        = q0 * axisQ (rateFactor k dt * b) x y z
    rw [mul_assoc, axisQ_mul _ _ _ _ _ hxyz, hang]

/-- Witness for C9: scalar damping from 0 toward 1 at rate 1 with dt = 2, and
the rotation primitive at the identity configuration. -/
theorem C9_frame_time_independence_witness :
    ((Damped.mk (0 : ℝ) 1 1).advance (2 / 2)).advance (2 / 2)
      = (Damped.mk (0 : ℝ) 1 1).advance 2 ∧
    (rotAdvance (rotAdvance ⟨1, 1 * axisQ 0 0 1 0, 1⟩ (2 / 2)) (2 / 2)).current
      = (rotAdvance ⟨1, 1 * axisQ 0 0 1 0, 1⟩ 2).current := by
  constructor
  · exact C9_frame_time_independence.1 ⟨0, 1, 1⟩ 2 (by norm_num)
  · exact C9_frame_time_independence.2 1 0 1 0 0 1 2 normSq_oneQ (by norm_num) le_rfl
      pi_half_nonneg (by norm_num) (by norm_num)
